import Mathlib

/-!
Verification of the crabml core (GGUF constants and value-type table from
`src/gguf.rs`, and the llama2 token sampler from `crabml-llama2/src/sampler.rs`).

The embedding is a shallow one over exact rational arithmetic: the `f32`
values of the source are modelled by `ℚ`, machine indices by `ℕ`.  The few
places where `f32` semantics are observable to the claims (division by zero
producing an infinite cutoff in `sample_topp`, `usize` underflow panics) are
modelled explicitly and noted at the definition concerned.  Rust panics are
modelled as `Option.none` / `SampleResult.panicked`; `Result` values as
`Except`.
-/

namespace Crabml

/-! ## GGUF part (`src/gguf.rs`) -/

/-- The value-type enumeration `GGUFValueType` of `src/gguf.rs`, one
constructor per Rust variant, in declaration order. -/
inductive GGUFValueType where
  | U8
  | I8
  | U16
  | I16
  | U32
  | I32
  | F32
  | Bool
  | String
  | Array
  | U64
  | I64
  | F64
deriving DecidableEq

/-- The numeric discriminant the Rust source assigns to each
`GGUFValueType` variant (`U8 = 0`, ..., `F64 = 12`). -/
def GGUFValueType.tag : GGUFValueType → ℕ
  | .U8 => 0
  | .I8 => 1
  | .U16 => 2
  | .I16 => 3
  | .U32 => 4
  | .I32 => 5
  | .F32 => 6
  | .Bool => 7
  | .String => 8
  | .Array => 9
  | .U64 => 10
  | .I64 => 11
  | .F64 => 12

/-- `const GGUF_MAGIC: u64 = 0x46554747` from `src/gguf.rs`. -/
def GGUF_MAGIC : ℕ := 0x46554747

/-- `const GGUF_VERSION: u64 = 2` from `src/gguf.rs`. -/
def GGUF_VERSION : ℕ := 2

/-- `const GGUF_DEFAULT_ALIGNMENT: u64 = 32` from `src/gguf.rs`. -/
def GGUF_DEFAULT_ALIGNMENT : ℕ := 32

/-- Little-endian reading of a list of byte values as an unsigned integer
(first byte least significant). -/
def leBytes (bs : List ℕ) : ℕ :=
  bs.foldr (fun b acc => b + 256 * acc) 0

/-! ## Sampler part (`crabml-llama2/src/sampler.rs`) -/

/-- Modelled from the spec: the error kinds of `crabml::error::ErrorKind`
(the crate's error module is not under `src/`); section 7 of the spec names
the two kinds this core uses, `DataError` and `Unexpected`. -/
inductive ErrorKind where
  | Unexpected
  | DataError
deriving DecidableEq

/-- Modelled from the spec: `crabml::error::Error` (not under `src/`), the
error value carrying a kind and a message.  The `cause` field, always `None`
in the sampler, is omitted. -/
structure Error where
  kind : ErrorKind
  message : String
deriving DecidableEq

/-- The outcome of one `Llama2Sampler::sample` call: a returned token index,
a returned error, or a Rust panic. -/
inductive SampleResult where
  | ok (i : ℕ)
  | err (e : Error)
  | panicked
deriving DecidableEq

/-- Lift the `Option`-valued model of `sample_topp` (where `none` models a
panic) into a `SampleResult`. -/
def SampleResult.ofToppOption : Option ℕ → SampleResult
  | some i => SampleResult.ok i
  | none => SampleResult.panicked

/-- The sampler state `Llama2Sampler`.  The scratch vector `prob_index` is
`vec![(0.0, 0); vocab_size]`; only its length is observable (its contents are
overwritten before being read on every use), so the model keeps the length. -/
structure Llama2Sampler where
  prob_index_len : ℕ
  temperature : ℚ
  topp : ℚ

/-- `Llama2Sampler::new(vocab_size, temperature, topp)`. -/
def Llama2Sampler.new (vocab_size : ℕ) (temperature : ℚ) (topp : ℚ) : Llama2Sampler :=
  { prob_index_len := vocab_size, temperature := temperature, topp := topp }

/-- The loop of `Llama2Sampler::sample_multi`: running sum `cdf`, current
index `i`, returning the first index whose running sum exceeds `coin`, and
`fb` when the list is exhausted. -/
def sampleMultiGo : List ℚ → ℚ → ℚ → ℕ → ℕ → ℕ
  | [], _, _, _, fb => fb
  | p :: rest, coin, cdf, i, fb =>
      if coin < cdf + p then i else sampleMultiGo rest coin (cdf + p) (i + 1) fb

/-- `Llama2Sampler::sample_multi(probs, coin)`: first index where the running
cumulative sum strictly exceeds `coin`, else `probs.len() - 1`.  (On an empty
list the source's `probs.len() - 1` underflows; the claims only concern
non-empty inputs and the model uses truncated subtraction there.) -/
def sample_multi (probs : List ℚ) (coin : ℚ) : ℕ :=
  sampleMultiGo probs coin 0 0 (probs.length - 1)

/-- One step of `Iterator::max_by` as used in `sample_argmax`: keep the
accumulator only when it compares strictly greater, so later elements win
ties (Rust's documented last-maximum behaviour). -/
def maxStep (acc : Option (ℕ × ℚ)) (x : ℕ × ℚ) : Option (ℕ × ℚ) :=
  match acc with
  | none => some x
  | some a => if x.2 < a.2 then some a else some x

/-- `Llama2Sampler::sample_argmax(probs)`: index of the (last) maximum via
`iter().enumerate().max_by(..)`, or an `Unexpected` error on an empty input. -/
def sample_argmax (probs : List ℚ) : Except Error ℕ :=
  match probs.enum.foldl maxStep none with
  | some m => Except.ok m.1
  | none => Except.error { kind := ErrorKind.Unexpected, message := "failed to sample from logits" }

/-- The test `*prob >= cutoff` of `sample_topp`, with
`cutoff = (1.0 - topp) / (probs.len() - 1) as f32`.  For `len ≥ 2` the
division is exact rational arithmetic.  For `len = 1` the source divides by
`0.0f32`: the cutoff is `+inf` when `topp < 1` (nothing passes), `NaN` when
`topp = 1` (`>=` is false, nothing passes), and `-inf` when `topp > 1`
(everything passes). -/
def passesCutoff (len : ℕ) (topp : ℚ) (p : ℚ) : Bool :=
  if 2 ≤ len then decide ((1 - topp) / ((len : ℚ) - 1) ≤ p)
  else decide (1 < topp)

/-- The filtering loop of `sample_topp`: the `(probability, original-index)`
pairs written to `prob_index[0..n0]`, in encounter order. -/
def toppFilter (probs : List ℚ) (topp : ℚ) : List (ℚ × ℕ) :=
  (probs.enum.filter (fun x => passesCutoff probs.length topp x.2)).map (fun x => (x.2, x.1))

/-- `prob_index[..n0].sort_by(|a, b| a.0.partial_cmp(&b.0).unwrap())`:
stable ascending sort on the probability component (Rust's `sort_by` is
stable; `List.insertionSort` with `≤` on the key is the matching stable
sort). -/
def sortProb (l : List (ℚ × ℕ)) : List (ℚ × ℕ) :=
  List.insertionSort (fun a b => a.1 ≤ b.1) l

/-- The truncation loop of `sample_topp`: accumulate probabilities over the
sorted list and return `(last_idx, cumulative_prob)` — the position at which
the running total first exceeds `topp` together with that running total, or
`(dflt, total)` when it never does. -/
def truncGo : List (ℚ × ℕ) → ℚ → ℚ → ℕ → ℕ → ℕ × ℚ
  | [], _, acc, _, dflt => (dflt, acc)
  | p :: rest, topp, acc, i, dflt =>
      if topp < acc + p.1 then (i, acc + p.1)
      else truncGo rest topp (acc + p.1) (i + 1) dflt

/-- The final loop of `sample_topp`: walk the truncated list accumulating
probability, returning the original index of the first element whose running
total exceeds `r`, and `fb` past the end. -/
def cdfScan : List (ℚ × ℕ) → ℚ → ℚ → ℕ → ℕ
  | [], _, _, fb => fb
  | p :: rest, r, acc, fb =>
      if r < acc + p.1 then p.2 else cdfScan rest r (acc + p.1) fb

/-- `Llama2Sampler::sample_topp(probs, topp, prob_index, coin)`.  `none`
models a Rust panic: an empty `probs` underflows `probs.len() - 1`; a
filtered subset larger than the scratch slice panics on the write
`prob_index[n0] = ..`; and `n0 = 0` underflows `n0 - 1` (`usize`), after
which the slice index `prob_index[0..=last_idx]` is out of bounds.  The
source otherwise always returns `Ok`. -/
def sample_topp (probs : List ℚ) (topp : ℚ) (scratch_len : ℕ) (coin : ℚ) : Option ℕ :=
  if probs.length = 0 then none
  else
    let cands := toppFilter probs topp
    let n0 := cands.length
    if scratch_len < n0 then none
    else if n0 = 0 then none
    else
      let sorted := sortProb cands
      let tr := truncGo sorted topp 0 0 (n0 - 1)
      let r := coin * tr.2
      some (cdfScan (sorted.take (tr.1 + 1)) r 0 ((sorted.getD tr.1 (0, 0)).2))

/-- Modelled from the spec: `softmax` from `crate::math` (not under `src/`);
section 4.3 words it as "each element becomes exp(value) / sum(exp(all
values))".  The transcendental exponential is a parameter `expF`. -/
def softmaxWith (expF : ℚ → ℚ) (xs : List ℚ) : List ℚ :=
  xs.map (fun x => expF x / (xs.map expF).sum)

/-- `Llama2Sampler::sample(&mut self, logits)`.  The drawn random `coin` is a
parameter.  Returns the call's outcome together with the final contents of
the `logits` buffer (which the source mutates in place on the stochastic
path).  When `topp <= 0` or `topp >= 1` the source computes
`Self::sample_multi(logits, coin)` and discards the value (there is no
`return`), then falls through to `sample_topp` unconditionally; the model
keeps the discarded call as a dead binding. -/
def Llama2Sampler.sample (s : Llama2Sampler) (expF : ℚ → ℚ) (logits : List ℚ) (coin : ℚ) :
    SampleResult × List ℚ :=
  if s.temperature = 0 then
    (match sample_argmax logits with
      | Except.ok i => SampleResult.ok i
      | Except.error e => SampleResult.err e,
     logits)
  else
    let scaled := logits.map (fun x => x / s.temperature)
    let probs := softmaxWith expF scaled
    let _discarded := if s.topp ≤ 0 ∨ 1 ≤ s.topp then some (sample_multi probs coin) else none
    (SampleResult.ofToppOption (sample_topp probs s.topp s.prob_index_len coin), probs)

/-- Running (inclusive) partial sums of a list starting from `acc`:
`partialSumsFrom acc [p, q, ...] = [acc + p, acc + p + q, ...]`. -/
def partialSumsFrom (acc : ℚ) : List ℚ → List ℚ
  | [] => []
  | p :: rest => (acc + p) :: partialSumsFrom (acc + p) rest

/-- Running partial sums of a list: entry `i` is the sum of the first
`i + 1` elements. -/
def partialSums (l : List ℚ) : List ℚ := partialSumsFrom 0 l

/-- The nucleus-sampling procedure as the specification words it, written
from the claim's steps (to be compared with `sample_topp`, the embedding of
the source): `cutoff = (1 - topp) / (len - 1)`; keep the
`(probability, original-index)` pairs with probability at least the cutoff
in encounter order; sort them by probability ascending; `last_idx` is the
first position whose running cumulative probability exceeds `topp`,
defaulting to `n0 - 1`; rescale the coin by the cumulative probability
accumulated up to `last_idx`; then return the original index of the first
element of positions `0..=last_idx` whose running cumulative probability
exceeds the rescaled coin, falling back to the element at `last_idx`.
`none` marks the `n0 = 0` case, where the described steps are impossible. -/
def sample_topp_spec (probs : List ℚ) (topp : ℚ) (coin : ℚ) : Option ℕ :=
  let cutoff := (1 - topp) / ((probs.length : ℚ) - 1)
  let cands := (probs.enum.filter (fun x => decide (cutoff ≤ x.2))).map (fun x => (x.2, x.1))
  let n0 := cands.length
  if n0 = 0 then none
  else
    let sorted := sortProb cands
    let sums := partialSums (sorted.map Prod.fst)
    let last_idx := (sums.findIdx? (fun c => decide (topp < c))).getD (n0 - 1)
    let mass := sums.getD last_idx 0
    let r := coin * mass
    let truncated := sorted.take (last_idx + 1)
    let tsums := partialSums (truncated.map Prod.fst)
    some
      (match tsums.findIdx? (fun c => decide (r < c)) with
        | some j => (truncated.getD j (0, 0)).2
        | none => (sorted.getD last_idx (0, 0)).2)

/-! ## Helper lemmas about the loop functions -/

/-- Characterisation of the `sample_multi` loop: either it stops at the
first position whose running sum (from `cdf`) exceeds `coin`, or it runs off
the end, returns the fallback, and no running sum exceeds `coin`. -/
theorem sampleMultiGo_spec (l : List ℚ) : ∀ (coin cdf : ℚ) (i fb : ℕ),
    (∃ j < l.length, sampleMultiGo l coin cdf i fb = i + j ∧
      coin < cdf + (l.take (j + 1)).sum ∧
      ∀ k < j, cdf + (l.take (k + 1)).sum ≤ coin) ∨
    (sampleMultiGo l coin cdf i fb = fb ∧
      ∀ k < l.length, cdf + (l.take (k + 1)).sum ≤ coin) := by
  induction l with
  | nil =>
    intro coin cdf i fb
    right
    exact ⟨rfl, by intro k hk; simp at hk⟩
  | cons p rest ih =>
    intro coin cdf i fb
    by_cases hc : coin < cdf + p
    · left
      refine ⟨0, by simp, by simp [sampleMultiGo, hc], by simpa using hc, by intro k hk; omega⟩
    · have hstep : sampleMultiGo (p :: rest) coin cdf i fb =
          sampleMultiGo rest coin (cdf + p) (i + 1) fb := by
        simp [sampleMultiGo, hc]
      rcases ih coin (cdf + p) (i + 1) fb with ⟨j, hj, heq, hlt, hall⟩ | ⟨heq, hall⟩
      · left
        refine ⟨j + 1, by simpa using Nat.succ_lt_succ hj, ?_, ?_, ?_⟩
        · rw [hstep, heq]; omega
        · simpa [List.take_succ_cons, List.sum_cons, add_assoc] using hlt
        · intro k hk
          match k with
          | 0 => simpa using le_of_not_lt hc
          | Nat.succ k' =>
            have := hall k' (by omega)
            simpa [List.take_succ_cons, List.sum_cons, add_assoc] using this
      · right
        refine ⟨hstep.trans heq, ?_⟩
        intro k hk
        match k with
        | 0 => simpa using le_of_not_lt hc
        | Nat.succ k' =>
          have := hall k' (by simpa using Nat.lt_of_succ_lt_succ hk)
          simpa [List.take_succ_cons, List.sum_cons, add_assoc] using this

/-! ## Claim C5: multinomial sampling -/

/-- C5: for every probability vector and coin in `[0, 1)`, `sample_multi`
returns the first index at which the running cumulative sum strictly
exceeds the coin, and the last index `len - 1` when the cumulative sum never
exceeds it; with `coin = 0` and all probabilities strictly positive it
returns index 0. -/
theorem sample_multi_first_exceed (probs : List ℚ) (coin : ℚ)
    (h : probs ≠ []) (h0 : 0 ≤ coin) (h1 : coin < 1) :
    sample_multi probs coin < probs.length ∧
    ((coin < (probs.take (sample_multi probs coin + 1)).sum ∧
        ∀ j < sample_multi probs coin, (probs.take (j + 1)).sum ≤ coin) ∨
      (sample_multi probs coin = probs.length - 1 ∧
        ∀ j < probs.length, (probs.take (j + 1)).sum ≤ coin)) ∧
    (coin = 0 → (∀ p ∈ probs, 0 < p) → sample_multi probs coin = 0) := by
  obtain ⟨q, tl, rfl⟩ := List.exists_cons_of_ne_nil h
  have hlen : 0 < (q :: tl).length := by simp
  rcases sampleMultiGo_spec (q :: tl) coin 0 0 ((q :: tl).length - 1) with
    ⟨j, hj, heq, hlt, hall⟩ | ⟨heq, hall⟩
  · unfold sample_multi
    rw [heq, Nat.zero_add]
    refine ⟨hj, Or.inl ⟨by simpa using hlt, fun k hk => by simpa using hall k hk⟩, ?_⟩
    intro hc hpos
    rcases Nat.eq_zero_or_pos j with h0j | h0j
    · exact h0j
    · have h1' := hall 0 h0j
      rw [hc] at h1'
      simp only [List.take_succ_cons, List.take_zero, List.sum_cons, List.sum_nil,
        add_zero, zero_add] at h1'
      exact absurd h1' (not_le.mpr (hpos q (by simp)))
  · unfold sample_multi
    rw [heq]
    refine ⟨Nat.sub_lt hlen Nat.one_pos, Or.inr ⟨rfl, fun k hk => by simpa using hall k hk⟩, ?_⟩
    intro hc hpos
    have h1' := hall 0 hlen
    rw [hc] at h1'
    simp only [List.take_succ_cons, List.take_zero, List.sum_cons, List.sum_nil,
      add_zero, zero_add] at h1'
    exact absurd h1' (not_le.mpr (hpos q (by simp)))

/-- Witness for C5 at `probs = [1/2, 1/2]`, `coin = 1/2`. -/
theorem sample_multi_first_exceed_witness :
    (([(1 : ℚ)/2, 1/2] : List ℚ) ≠ [] ∧ (0 : ℚ) ≤ 1/2 ∧ (1 : ℚ)/2 < 1) ∧
    (sample_multi [(1 : ℚ)/2, 1/2] (1/2) < ([(1 : ℚ)/2, 1/2] : List ℚ).length ∧
      (((1 : ℚ)/2 < (([(1 : ℚ)/2, 1/2] : List ℚ).take (sample_multi [(1 : ℚ)/2, 1/2] (1/2) + 1)).sum ∧
          ∀ j < sample_multi [(1 : ℚ)/2, 1/2] (1/2),
            (([(1 : ℚ)/2, 1/2] : List ℚ).take (j + 1)).sum ≤ (1 : ℚ)/2) ∨
        (sample_multi [(1 : ℚ)/2, 1/2] (1/2) = ([(1 : ℚ)/2, 1/2] : List ℚ).length - 1 ∧
          ∀ j < ([(1 : ℚ)/2, 1/2] : List ℚ).length,
            (([(1 : ℚ)/2, 1/2] : List ℚ).take (j + 1)).sum ≤ (1 : ℚ)/2)) ∧
      ((1 : ℚ)/2 = 0 → (∀ p ∈ ([(1 : ℚ)/2, 1/2] : List ℚ), 0 < p) →
        sample_multi [(1 : ℚ)/2, 1/2] (1/2) = 0)) :=
  ⟨⟨by simp, by norm_num, by norm_num⟩,
    sample_multi_first_exceed [(1 : ℚ)/2, 1/2] (1/2) (by simp) (by norm_num) (by norm_num)⟩

/-- The `max_by` fold of `sample_argmax`: over a list of index-value pairs
whose indices strictly increase and all exceed the accumulator's index, the
fold returns the last pair attaining the maximum value. -/
theorem maxStep_fold_spec (l : List (ℕ × ℚ)) : ∀ (a : ℕ × ℚ),
    (∀ x ∈ l, a.1 < x.1) → l.Pairwise (fun p q => p.1 < q.1) →
    ∃ m, l.foldl maxStep (some a) = some m ∧
      (m = a ∨ m ∈ l) ∧ a.2 ≤ m.2 ∧ (∀ x ∈ l, x.2 ≤ m.2) ∧
      (a.2 = m.2 → a.1 ≤ m.1) ∧ (∀ x ∈ l, x.2 = m.2 → x.1 ≤ m.1) := by
  induction l with
  | nil =>
    intro a _ _
    exact ⟨a, rfl, Or.inl rfl, le_refl _, by simp, fun _ => le_refl _, by simp⟩
  | cons x rest ih =>
    intro a hgt hpw
    have hpw' : rest.Pairwise (fun p q => p.1 < q.1) := (List.pairwise_cons.mp hpw).2
    have hxrest : ∀ y ∈ rest, x.1 < y.1 := (List.pairwise_cons.mp hpw).1
    by_cases hxa : x.2 < a.2
    · have hstep : (x :: rest).foldl maxStep (some a) = rest.foldl maxStep (some a) := by
        simp [List.foldl_cons, maxStep, hxa]
      obtain ⟨m, hm, hmem, hale, hall, htie_a, htie⟩ :=
        ih a (fun y hy => hgt y (List.mem_cons_of_mem x hy)) hpw'
      refine ⟨m, hstep.trans hm, ?_, hale, ?_, htie_a, ?_⟩
      · rcases hmem with h | h
        · exact Or.inl h
        · exact Or.inr (List.mem_cons_of_mem x h)
      · intro y hy
        rcases List.mem_cons.mp hy with rfl | hy'
        · exact le_of_lt (lt_of_lt_of_le hxa hale)
        · exact hall y hy'
      · intro y hy hy2
        rcases List.mem_cons.mp hy with rfl | hy'
        · exact absurd hy2 (ne_of_lt (lt_of_lt_of_le hxa hale))
        · exact htie y hy' hy2
    · have hax : a.2 ≤ x.2 := le_of_not_lt hxa
      have hstep : (x :: rest).foldl maxStep (some a) = rest.foldl maxStep (some x) := by
        simp [List.foldl_cons, maxStep, hxa]
      obtain ⟨m, hm, hmem, hxle, hall, htie_x, htie⟩ := ih x hxrest hpw'
      refine ⟨m, hstep.trans hm, ?_, le_trans hax hxle, ?_, ?_, ?_⟩
      · rcases hmem with rfl | h
        · exact Or.inr (List.mem_cons_self _ _)
        · exact Or.inr (List.mem_cons_of_mem x h)
      · intro y hy
        rcases List.mem_cons.mp hy with rfl | hy'
        · exact hxle
        · exact hall y hy'
      · intro ham
        have hxm : x.2 = m.2 := le_antisymm hxle (ham ▸ hax)
        have h1 := htie_x hxm
        have h2 : a.1 < x.1 := hgt x (List.mem_cons_self _ _)
        omega
      · intro y hy hy2
        rcases List.mem_cons.mp hy with rfl | hy'
        · exact htie_x hy2
        · exact htie y hy' hy2

/-- The pairs of `l.enum` have strictly increasing first components. -/
theorem enum_pairwise_fst_lt (l : List ℚ) :
    l.enum.Pairwise (fun p q => p.1 < q.1) := by
  have h := List.pairwise_lt_range l.length
  rw [← List.enum_map_fst] at h
  exact List.pairwise_map.mp h

/-- Membership in `l.enum` determines the value at the index. -/
theorem enum_mem_getD (l : List ℚ) (x : ℕ × ℚ) (hx : x ∈ l.enum) :
    x.1 < l.length ∧ l.getD x.1 0 = x.2 := by
  have h := List.mem_enum_iff_get?.mp hx
  obtain ⟨hlt, hget⟩ := List.get?_eq_some.mp h
  refine ⟨hlt, ?_⟩
  rw [List.getD_eq_get?, h]
  rfl

/-- Each in-range index appears in `l.enum` with its value. -/
theorem getD_mem_enum (l : List ℚ) (j : ℕ) (hj : j < l.length) :
    (j, l.getD j 0) ∈ l.enum := by
  refine List.mk_mem_enum_iff_get?.mpr ?_
  rw [List.getD_eq_get?, List.get?_eq_get hj]
  rfl

/-- `sample_argmax` on a non-empty list succeeds with an in-range index
holding the maximum value, and that index is the last one attaining the
maximum. -/
theorem argmax_exists (probs : List ℚ) (h : probs ≠ []) :
    ∃ i, sample_argmax probs = Except.ok i ∧ i < probs.length ∧
      (∀ j < probs.length, probs.getD j 0 ≤ probs.getD i 0) ∧
      (∀ j < probs.length, probs.getD j 0 = probs.getD i 0 → j ≤ i) := by
  have hpw := enum_pairwise_fst_lt probs
  cases henum : probs.enum with
  | nil =>
    exfalso
    have := List.enum_length (l := probs)
    rw [henum] at this
    simp at this
    exact h (List.length_eq_zero.mp this.symm)
  | cons x t =>
    rw [henum] at hpw
    obtain ⟨m, hm, hmem, hale, hall, htie_a, htie⟩ :=
      maxStep_fold_spec t x (List.pairwise_cons.mp hpw).1 (List.pairwise_cons.mp hpw).2
    have hfold : probs.enum.foldl maxStep none = some m := by
      rw [henum, List.foldl_cons]
      exact hm
    have hmmem : m ∈ probs.enum := by
      rw [henum]
      rcases hmem with rfl | hmem'
      · exact List.mem_cons_self _ _
      · exact List.mem_cons_of_mem x hmem'
    obtain ⟨hmlt, hmval⟩ := enum_mem_getD probs m hmmem
    have hbound : ∀ y ∈ probs.enum, y.2 ≤ m.2 ∧ (y.2 = m.2 → y.1 ≤ m.1) := by
      intro y hy
      rw [henum] at hy
      rcases List.mem_cons.mp hy with rfl | hy'
      · exact ⟨hale, htie_a⟩
      · exact ⟨hall y hy', htie y hy'⟩
    refine ⟨m.1, ?_, hmlt, ?_, ?_⟩
    · unfold sample_argmax
      rw [hfold]
    · intro j hj
      have := (hbound (j, probs.getD j 0) (getD_mem_enum probs j hj)).1
      rw [hmval]
      exact this
    · intro j hj hval
      have := (hbound (j, probs.getD j 0) (getD_mem_enum probs j hj)).2
      exact this (hval.trans hmval)

/-! ## Claim C4: greedy sampling -/

/-- C4: for every non-empty sequence, greedy sampling (`sample_argmax`)
returns an index holding the maximum value, and when the maximum occurs at
several indices it returns the last such index. -/
theorem sample_argmax_is_last_max (probs : List ℚ) (h : probs ≠ []) :
    ∃ i, sample_argmax probs = Except.ok i ∧ i < probs.length ∧
      (∀ j < probs.length, probs.getD j 0 ≤ probs.getD i 0) ∧
      (∀ j < probs.length, probs.getD j 0 = probs.getD i 0 → j ≤ i) :=
  argmax_exists probs h

/-- Witness for C4 at `probs = [1, 3, 2, 3]` (duplicate maxima at indices 1
and 3). -/
theorem sample_argmax_is_last_max_witness :
    (([(1 : ℚ), 3, 2, 3] : List ℚ) ≠ []) ∧
    (∃ i, sample_argmax [(1 : ℚ), 3, 2, 3] = Except.ok i ∧
      i < ([(1 : ℚ), 3, 2, 3] : List ℚ).length ∧
      (∀ j < ([(1 : ℚ), 3, 2, 3] : List ℚ).length,
        ([(1 : ℚ), 3, 2, 3] : List ℚ).getD j 0 ≤ ([(1 : ℚ), 3, 2, 3] : List ℚ).getD i 0) ∧
      (∀ j < ([(1 : ℚ), 3, 2, 3] : List ℚ).length,
        ([(1 : ℚ), 3, 2, 3] : List ℚ).getD j 0 = ([(1 : ℚ), 3, 2, 3] : List ℚ).getD i 0 →
          j ≤ i)) :=
  ⟨by simp, sample_argmax_is_last_max [(1 : ℚ), 3, 2, 3] (by simp)⟩

/-! ## Claim C6: the greedy path's error behaviour -/

/-- C6: with temperature 0, `sample` returns an error (of kind `Unexpected`)
exactly when the logits sequence is empty, and succeeds on every non-empty
input. -/
theorem sample_greedy_unexpected_iff_empty (s : Llama2Sampler) (expF : ℚ → ℚ)
    (logits : List ℚ) (coin : ℚ) (h : s.temperature = 0) :
    ((s.sample expF logits coin).1 =
        SampleResult.err { kind := ErrorKind.Unexpected, message := "failed to sample from logits" } ↔
      logits = []) ∧
    (logits ≠ [] → ∃ i, (s.sample expF logits coin).1 = SampleResult.ok i) := by
  by_cases hnil : logits = []
  · subst hnil
    refine ⟨⟨fun _ => rfl, fun _ => ?_⟩, fun hne => absurd rfl hne⟩
    simp [Llama2Sampler.sample, h, sample_argmax]
  · obtain ⟨i, hok, _, _, _⟩ := argmax_exists logits hnil
    have hsamp : (s.sample expF logits coin).1 = SampleResult.ok i := by
      simp [Llama2Sampler.sample, h, hok]
    refine ⟨⟨fun hcontr => ?_, fun hcontr => absurd hcontr hnil⟩, fun _ => ⟨i, hsamp⟩⟩
    rw [hsamp] at hcontr
    exact absurd hcontr (by simp)

/-- Witness for C6 at temperature 0 with the non-empty logits `[5, 7, 7]`. -/
theorem sample_greedy_unexpected_iff_empty_witness :
    (Llama2Sampler.new 4 0 (1/2)).temperature = 0 ∧
    ((((Llama2Sampler.new 4 0 (1/2)).sample (fun _ => 1) [(5 : ℚ), 7, 7] 0).1 =
        SampleResult.err { kind := ErrorKind.Unexpected, message := "failed to sample from logits" } ↔
      ([(5 : ℚ), 7, 7] : List ℚ) = []) ∧
    (([(5 : ℚ), 7, 7] : List ℚ) ≠ [] →
      ∃ i, ((Llama2Sampler.new 4 0 (1/2)).sample (fun _ => 1) [(5 : ℚ), 7, 7] 0).1 =
        SampleResult.ok i)) :=
  ⟨rfl, sample_greedy_unexpected_iff_empty _ _ _ _ rfl⟩

/-! ## Claim C10: the logits buffer is untouched on the greedy path -/

/-- C10: with temperature 0 the greedy path leaves the logits buffer
unchanged, and (given the spec's nonnegative temperature domain) an observed
mutation of the buffer implies temperature > 0. -/
theorem sample_frame_logits (s : Llama2Sampler) (expF : ℚ → ℚ) (logits : List ℚ)
    (coin : ℚ) (h : 0 ≤ s.temperature) :
    (s.temperature = 0 → (s.sample expF logits coin).2 = logits) ∧
    ((s.sample expF logits coin).2 ≠ logits → 0 < s.temperature) := by
  have hzero : s.temperature = 0 → (s.sample expF logits coin).2 = logits := by
    intro h0
    simp [Llama2Sampler.sample, h0]
  refine ⟨hzero, fun hne => ?_⟩
  rcases lt_or_eq_of_le h with hlt | heq
  · exact hlt
  · exact absurd (hzero heq.symm) hne

/-- Witness for C10 at temperature 0 with logits `[1, 2, 3]`. -/
theorem sample_frame_logits_witness :
    (0 : ℚ) ≤ (Llama2Sampler.new 3 0 (1/2)).temperature ∧
    (((Llama2Sampler.new 3 0 (1/2)).temperature = 0 →
      ((Llama2Sampler.new 3 0 (1/2)).sample (fun _ => 1) [(1 : ℚ), 2, 3] 0).2 =
        [(1 : ℚ), 2, 3]) ∧
    (((Llama2Sampler.new 3 0 (1/2)).sample (fun _ => 1) [(1 : ℚ), 2, 3] 0).2 ≠
        [(1 : ℚ), 2, 3] →
      (0 : ℚ) < (Llama2Sampler.new 3 0 (1/2)).temperature)) :=
  ⟨le_refl 0, sample_frame_logits _ _ _ _ (le_refl 0)⟩

/-! ## Claim C1: the disabled-top-p branch -/

/-- C1 counterexample: with logits `[0, 0, 0]`, temperature 1, top-p 0 and
coin 0, multinomial sampling over the (uniform) post-softmax distribution
returns index 0, but `sample` does not return it: the source discards the
`sample_multi` value and falls through to `sample_topp`, which panics here
(the cutoff 1/2 filters out every probability 1/3, so `n0 = 0`). -/
theorem sample_ignores_multinomial_cex :
    (Llama2Sampler.sample (Llama2Sampler.new 3 1 0) (fun _ => 1) [0, 0, 0] 0).1 =
      SampleResult.panicked ∧
    sample_multi (softmaxWith (fun _ => 1) (List.map (fun x => x / 1) [(0 : ℚ), 0, 0])) 0 = 0 ∧
    (Llama2Sampler.sample (Llama2Sampler.new 3 1 0) (fun _ => 1) [0, 0, 0] 0).1 ≠
      SampleResult.ok
        (sample_multi (softmaxWith (fun _ => 1) (List.map (fun x => x / 1) [(0 : ℚ), 0, 0])) 0) := by
  have hpan : (Llama2Sampler.sample (Llama2Sampler.new 3 1 0) (fun _ => 1) [0, 0, 0] 0).1 =
      SampleResult.panicked := by
    norm_num [Llama2Sampler.sample, Llama2Sampler.new, softmaxWith, sample_topp, toppFilter,
      passesCutoff, List.enum, List.enumFrom, List.filter, SampleResult.ofToppOption]
  have hmulti :
      sample_multi (softmaxWith (fun _ => 1) (List.map (fun x => x / 1) [(0 : ℚ), 0, 0])) 0 = 0 := by
    norm_num [softmaxWith, sample_multi, sampleMultiGo]
  refine ⟨hpan, hmulti, ?_⟩
  rw [hpan, hmulti]
  intro hcontr
  exact SampleResult.noConfusion hcontr

/-- C1 amended: when the top-p threshold is ≤ 0 or ≥ 1 (and the temperature
is nonzero), `sample` computes the multinomial draw but discards it; the
call's result is nucleus sampling (`sample_topp`) applied to the full
post-softmax distribution with the same coin. -/
theorem sample_falls_through_to_topp (s : Llama2Sampler) (expF : ℚ → ℚ)
    (logits : List ℚ) (coin : ℚ) (h : s.temperature ≠ 0)
    (hp : s.topp ≤ 0 ∨ 1 ≤ s.topp) :
    (s.sample expF logits coin).1 =
      SampleResult.ofToppOption
        (sample_topp (softmaxWith expF (logits.map (fun x => x / s.temperature)))
          s.topp s.prob_index_len coin) := by
  simp [Llama2Sampler.sample, h]

/-- Witness for C1's amended claim at temperature 1, top-p 0. -/
theorem sample_falls_through_to_topp_witness :
    (Llama2Sampler.new 3 1 0).temperature ≠ 0 ∧
    ((Llama2Sampler.new 3 1 0).topp ≤ 0 ∨ 1 ≤ (Llama2Sampler.new 3 1 0).topp) ∧
    ((Llama2Sampler.new 3 1 0).sample (fun _ => 1) [(0 : ℚ), 0, 0] 0).1 =
      SampleResult.ofToppOption
        (sample_topp
          (softmaxWith (fun _ => 1)
            (([(0 : ℚ), 0, 0] : List ℚ).map (fun x => x / (Llama2Sampler.new 3 1 0).temperature)))
          (Llama2Sampler.new 3 1 0).topp (Llama2Sampler.new 3 1 0).prob_index_len 0) :=
  ⟨by norm_num [Llama2Sampler.new], Or.inl (by norm_num [Llama2Sampler.new]),
    sample_falls_through_to_topp _ _ _ _ (by norm_num [Llama2Sampler.new])
      (Or.inl (by norm_num [Llama2Sampler.new]))⟩

/-! ## Claim C2: totality of the stochastic path -/

/-- C2 counterexample: logits `[0, 0]`, temperature 1, top-p 2/5, coin 0 —
the post-softmax distribution is `[1/2, 1/2]`, the cutoff is 3/5, no
probability reaches it (`n0 = 0`), and the sample call panics instead of
returning a value. -/
theorem sample_topp_empty_candidates_cex :
    (Llama2Sampler.sample (Llama2Sampler.new 2 1 (2/5)) (fun _ => 1) [0, 0] 0).1 =
      SampleResult.panicked ∧
    sample_topp [(1 : ℚ)/2, 1/2] (2/5) 2 0 = none := by
  constructor <;>
    norm_num [Llama2Sampler.sample, Llama2Sampler.new, softmaxWith, sample_topp, toppFilter,
      passesCutoff, List.enum, List.enumFrom, List.filter, SampleResult.ofToppOption]

/-- C2 amended: `sample_topp` returns a value whenever at least one
probability reaches the cutoff and the scratch slice can hold all candidate
pairs; when no probability reaches the cutoff (`n0 = 0` — e.g. uniform
`[1/2, 1/2]` with top-p 2/5, or any length-1 vector with top-p ≤ 1) the
`usize` computation `n0 - 1` underflows and the call panics rather than
falling back to the last candidate. -/
theorem sample_topp_total_of_candidates (probs : List ℚ) (topp : ℚ)
    (scratch_len : ℕ) (coin : ℚ) (h1 : toppFilter probs topp ≠ [])
    (h2 : (toppFilter probs topp).length ≤ scratch_len) :
    ∃ i, sample_topp probs topp scratch_len coin = some i := by
  have hlen : ¬probs.length = 0 := by
    intro h0
    apply h1
    have hnil : probs = [] := List.length_eq_zero.mp h0
    subst hnil
    simp [toppFilter]
  have hn0 : ¬(toppFilter probs topp).length = 0 := by
    simpa [List.length_eq_zero] using h1
  unfold sample_topp
  simp only [if_neg hlen, if_neg (Nat.not_lt.mpr h2), if_neg hn0]
  exact ⟨_, rfl⟩

/-- Witness for C2's amended claim at `probs = [1/2, 1/2]`, top-p 2/3. -/
theorem sample_topp_total_of_candidates_witness :
    toppFilter [(1 : ℚ)/2, 1/2] (2/3) ≠ [] ∧
    (toppFilter [(1 : ℚ)/2, 1/2] (2/3)).length ≤ 2 ∧
    (∃ i, sample_topp [(1 : ℚ)/2, 1/2] (2/3) 2 0 = some i) :=
  ⟨by
      norm_num [toppFilter, passesCutoff, List.enum, List.enumFrom, List.filter]
      exact List.cons_ne_nil _ _,
    by norm_num [toppFilter, passesCutoff, List.enum, List.enumFrom, List.filter],
    sample_topp_total_of_candidates _ _ _ _
      (by
        norm_num [toppFilter, passesCutoff, List.enum, List.enumFrom, List.filter]
        exact List.cons_ne_nil _ _)
      (by norm_num [toppFilter, passesCutoff, List.enum, List.enumFrom, List.filter])⟩

/-! ## Claim C7: returned indices are in vocabulary range -/

/-- Every candidate pair collected by `toppFilter` carries an original index
of `probs`. -/
theorem toppFilter_idx_lt (probs : List ℚ) (topp : ℚ) :
    ∀ x ∈ toppFilter probs topp, x.2 < probs.length := by
  intro x hx
  unfold toppFilter at hx
  obtain ⟨y, hy, rfl⟩ := List.mem_map.mp hx
  exact (enum_mem_getD probs y (List.mem_of_mem_filter hy)).1

/-- `sortProb` is a permutation of its input. -/
theorem sortProb_mem (l : List (ℚ × ℕ)) (x : ℚ × ℕ) :
    x ∈ sortProb l ↔ x ∈ l :=
  (List.perm_insertionSort _ l).mem_iff

/-- `sortProb` preserves length. -/
theorem sortProb_length (l : List (ℚ × ℕ)) : (sortProb l).length = l.length :=
  List.length_insertionSort _ l

/-- The truncation loop's index is the default or lies below
`i + l.length`. -/
theorem truncGo_fst_lt (l : List (ℚ × ℕ)) : ∀ (topp acc : ℚ) (i dflt : ℕ),
    (truncGo l topp acc i dflt).1 = dflt ∨ (truncGo l topp acc i dflt).1 < i + l.length := by
  induction l with
  | nil => intro topp acc i dflt; exact Or.inl rfl
  | cons p rest ih =>
    intro topp acc i dflt
    by_cases hc : topp < acc + p.1
    · right
      simp only [truncGo, if_pos hc, List.length_cons]
      omega
    · simp only [truncGo, if_neg hc]
      rcases ih topp (acc + p.1) (i + 1) dflt with h | h
      · exact Or.inl h
      · right
        simp only [List.length_cons]
        omega

/-- The final scan returns the fallback or the second component of a list
element. -/
theorem cdfScan_mem (l : List (ℚ × ℕ)) : ∀ (r acc : ℚ) (fb : ℕ),
    cdfScan l r acc fb = fb ∨ ∃ x ∈ l, cdfScan l r acc fb = x.2 := by
  induction l with
  | nil => intro r acc fb; exact Or.inl rfl
  | cons p rest ih =>
    intro r acc fb
    by_cases hc : r < acc + p.1
    · right
      exact ⟨p, List.mem_cons_self _ _, by simp [cdfScan, hc]⟩
    · rcases ih r (acc + p.1) fb with h | ⟨x, hx, hh⟩
      · left
        simpa [cdfScan, hc] using h
      · right
        exact ⟨x, List.mem_cons_of_mem _ hx, by simpa [cdfScan, hc] using hh⟩

/-- A successful `sample_topp` returns an original index of `probs`. -/
theorem sample_topp_lt (probs : List ℚ) (topp : ℚ) (scratch_len : ℕ) (coin : ℚ)
    (i : ℕ) (hsome : sample_topp probs topp scratch_len coin = some i) :
    i < probs.length := by
  simp only [sample_topp] at hsome
  split_ifs at hsome with hlen hscr hn0
  rw [Option.some.injEq] at hsome
  subst hsome
  have hmemb : ∀ x ∈ sortProb (toppFilter probs topp), x.2 < probs.length := fun x hx =>
    toppFilter_idx_lt probs topp x ((sortProb_mem (toppFilter probs topp) x).mp hx)
  have hlast : (truncGo (sortProb (toppFilter probs topp)) topp 0 0
      ((toppFilter probs topp).length - 1)).1 < (sortProb (toppFilter probs topp)).length := by
    rcases truncGo_fst_lt (sortProb (toppFilter probs topp)) topp 0 0
        ((toppFilter probs topp).length - 1) with h | h
    · rw [h, sortProb_length]
      omega
    · simpa using h
  rcases cdfScan_mem ((sortProb (toppFilter probs topp)).take
      ((truncGo (sortProb (toppFilter probs topp)) topp 0 0
        ((toppFilter probs topp).length - 1)).1 + 1)) _ 0 _ with h | ⟨x, hx, hh⟩
  · rw [h, List.getD_eq_getElem _ _ hlast]
    exact hmemb _ (List.getElem_mem hlast)
  · rw [hh]
    exact hmemb x (List.take_subset _ _ hx)

/-- A non-empty list gives a multinomial index below its length. -/
theorem sample_multi_lt (probs : List ℚ) (coin : ℚ) (h : probs ≠ []) :
    sample_multi probs coin < probs.length := by
  have hlen : 0 < probs.length := List.length_pos.mpr h
  rcases sampleMultiGo_spec probs coin 0 0 (probs.length - 1) with
    ⟨j, hj, heq, _, _⟩ | ⟨heq, _⟩
  · unfold sample_multi
    rw [heq]
    omega
  · unfold sample_multi
    rw [heq]
    omega

/-- C7: on a non-empty logits vector whose length equals the configured
vocabulary size, every successful `sample` result is an index in
`[0, vocabulary_size)`; the multinomial draw computed on the post-softmax
distribution is likewise in range. -/
theorem sample_result_in_vocab_range (s : Llama2Sampler) (expF : ℚ → ℚ) (logits : List ℚ)
    (coin : ℚ) (h1 : logits ≠ []) (h2 : logits.length = s.prob_index_len) :
    (∀ i, (s.sample expF logits coin).1 = SampleResult.ok i → i < s.prob_index_len) ∧
    sample_multi (softmaxWith expF (logits.map (fun x => x / s.temperature))) coin <
      s.prob_index_len := by
  have hsmlen : (softmaxWith expF (logits.map (fun x => x / s.temperature))).length
      = logits.length := by simp [softmaxWith]
  have hsmne : softmaxWith expF (logits.map (fun x => x / s.temperature)) ≠ [] := by
    intro hc
    apply h1
    apply List.length_eq_zero.mp
    rw [← hsmlen, hc]
    rfl
  constructor
  · intro i hok
    by_cases ht : s.temperature = 0
    · obtain ⟨i0, hok0, hlt0, _, _⟩ := argmax_exists logits h1
      have hs : (s.sample expF logits coin).1 = SampleResult.ok i0 := by
        simp [Llama2Sampler.sample, ht, hok0]
      rw [hs] at hok
      have hii : i0 = i := by injection hok
      rw [← hii, ← h2]
      exact hlt0
    · have hs : (s.sample expF logits coin).1 =
          SampleResult.ofToppOption
            (sample_topp (softmaxWith expF (logits.map (fun x => x / s.temperature)))
              s.topp s.prob_index_len coin) := by
        simp [Llama2Sampler.sample, ht]
      rw [hs] at hok
      cases hopt : sample_topp (softmaxWith expF (logits.map (fun x => x / s.temperature)))
          s.topp s.prob_index_len coin with
      | none =>
        rw [hopt] at hok
        exact absurd hok (by simp [SampleResult.ofToppOption])
      | some j =>
        rw [hopt] at hok
        have hj := sample_topp_lt _ _ _ _ _ hopt
        have hji : j = i := by
          simpa [SampleResult.ofToppOption] using hok
        rw [← hji, ← h2, ← hsmlen]
        exact hj
  · have hmain := sample_multi_lt _ coin hsmne
    rw [hsmlen, h2] at hmain
    exact hmain

/-- Witness for C7 at vocabulary size 2, temperature 1, top-p 1/2, logits
`[0, 0]`. -/
theorem sample_result_in_vocab_range_witness :
    (([(0 : ℚ), 0] : List ℚ) ≠ [] ∧
      ([(0 : ℚ), 0] : List ℚ).length = (Llama2Sampler.new 2 1 (1/2)).prob_index_len) ∧
    ((∀ i, ((Llama2Sampler.new 2 1 (1/2)).sample (fun _ => 1) [(0 : ℚ), 0] 0).1 =
          SampleResult.ok i → i < (Llama2Sampler.new 2 1 (1/2)).prob_index_len) ∧
      sample_multi
          (softmaxWith (fun _ => 1)
            (([(0 : ℚ), 0] : List ℚ).map (fun x => x / (Llama2Sampler.new 2 1 (1/2)).temperature)))
          0 <
        (Llama2Sampler.new 2 1 (1/2)).prob_index_len) :=
  ⟨⟨by simp, rfl⟩, sample_result_in_vocab_range _ _ _ _ (by simp) rfl⟩

/-! ## Claim C3: the nucleus-sampling procedure step by step -/

/-- `partialSumsFrom` preserves length. -/
theorem partialSumsFrom_length (l : List ℚ) : ∀ acc, (partialSumsFrom acc l).length = l.length := by
  induction l with
  | nil => intro acc; rfl
  | cons p rest ih =>
    intro acc
    simp [partialSumsFrom, ih]

/-- On a non-empty list, `getLastD` is `getD` at the last position. -/
theorem getLastD_cons_getD (t : List ℚ) : ∀ (x d : ℚ),
    (x :: t).getLastD d = (x :: t).getD t.length d := by
  induction t with
  | nil => intro x d; rfl
  | cons y t' ih =>
    intro x d
    rw [List.getLastD_cons, ih y x]
    have hb : t'.length < (y :: t').length := by simp
    rw [List.getD_eq_getElem _ _ hb]
    simp only [List.length_cons, List.getD_cons_succ]
    rw [List.getD_eq_getElem _ _ hb]

/-- The truncation loop computed through partial sums and `findIdx?`: it
returns the first position whose partial sum exceeds `topp` together with
that partial sum, or the default index together with the total. -/
theorem truncGo_eq_spec (l : List (ℚ × ℕ)) : ∀ (topp acc : ℚ) (i dflt : ℕ),
    truncGo l topp acc i dflt =
      match (partialSumsFrom acc (l.map Prod.fst)).findIdx? (fun c => decide (topp < c)) with
      | some j => (i + j, (partialSumsFrom acc (l.map Prod.fst)).getD j 0)
      | none => (dflt, (partialSumsFrom acc (l.map Prod.fst)).getLastD acc) := by
  induction l with
  | nil =>
    intro topp acc i dflt
    simp [truncGo, partialSumsFrom]
  | cons p rest ih =>
    intro topp acc i dflt
    by_cases hc : topp < acc + p.1
    · simp [truncGo, hc, List.map_cons, partialSumsFrom, List.findIdx?_cons]
    · rw [show truncGo (p :: rest) topp acc i dflt =
          truncGo rest topp (acc + p.1) (i + 1) dflt by simp [truncGo, hc]]
      rw [ih topp (acc + p.1) (i + 1) dflt]
      cases hfi : (partialSumsFrom (acc + p.1) (rest.map Prod.fst)).findIdx?
          (fun c => decide (topp < c)) with
      | none =>
        simp only [List.map_cons, partialSumsFrom, List.findIdx?_cons, decide_eq_true_eq,
          if_neg hc, List.findIdx?_succ, hfi, Option.map_none', List.getLastD_cons]
      | some j =>
        simp only [List.map_cons, partialSumsFrom, List.findIdx?_cons, decide_eq_true_eq,
          if_neg hc, List.findIdx?_succ, hfi, Option.map_some', List.getD_cons_succ]
        have hadd : i + 1 + j = i + (j + 1) := by omega
        rw [hadd]

/-- The final scan computed through partial sums and `findIdx?`. -/
theorem cdfScan_eq_spec (l : List (ℚ × ℕ)) : ∀ (r acc : ℚ) (fb : ℕ),
    cdfScan l r acc fb =
      match (partialSumsFrom acc (l.map Prod.fst)).findIdx? (fun c => decide (r < c)) with
      | some j => (l.getD j (0, 0)).2
      | none => fb := by
  induction l with
  | nil =>
    intro r acc fb
    simp [cdfScan, partialSumsFrom]
  | cons p rest ih =>
    intro r acc fb
    by_cases hc : r < acc + p.1
    · simp [cdfScan, hc, List.map_cons, partialSumsFrom, List.findIdx?_cons]
    · rw [show cdfScan (p :: rest) r acc fb = cdfScan rest r (acc + p.1) fb by simp [cdfScan, hc]]
      rw [ih r (acc + p.1) fb]
      cases hfi : (partialSumsFrom (acc + p.1) (rest.map Prod.fst)).findIdx?
          (fun c => decide (r < c)) with
      | none =>
        simp [List.map_cons, partialSumsFrom, List.findIdx?_cons, hc, List.findIdx?_succ, hfi]
      | some j =>
        simp [List.map_cons, partialSumsFrom, List.findIdx?_cons, hc, List.findIdx?_succ,
          hfi, List.getD_cons_succ]

/-- With at least two probabilities, the source's filter test agrees with
the specification's `cutoff = (1 - topp) / (len - 1)` comparison. -/
theorem toppFilter_eq_spec (probs : List ℚ) (topp : ℚ) (h2 : 2 ≤ probs.length) :
    toppFilter probs topp =
      (probs.enum.filter
        (fun x => decide ((1 - topp) / ((probs.length : ℚ) - 1) ≤ x.2))).map
        (fun x => (x.2, x.1)) := by
  unfold toppFilter
  congr 1
  apply List.filter_congr
  intro x _
  simp [passesCutoff, h2]

/-- The truncation result, as produced by `truncGo_eq_spec`, written with
`Option.getD`: valid as soon as `getLastD` agrees with `getD` at the default
position. -/
theorem truncMatch_getD (o : Option ℕ) (sums : List ℚ) (n0 : ℕ)
    (hlast : sums.getLastD 0 = sums.getD (n0 - 1) 0) :
    (match o with
      | some j => (0 + j, sums.getD j 0)
      | none => (n0 - 1, sums.getLastD 0)) =
      (o.getD (n0 - 1), sums.getD (o.getD (n0 - 1)) 0) := by
  cases o with
  | none =>
    rw [hlast]
    rfl
  | some j => simp

/-- The filtered candidate list is never longer than `probs`. -/
theorem toppFilter_length_le (probs : List ℚ) (topp : ℚ) :
    (toppFilter probs topp).length ≤ probs.length := by
  unfold toppFilter
  rw [List.length_map]
  exact le_trans (List.length_filter_le _ _) (le_of_eq List.enum_length)

/-- C3: for every probability vector of length ≥ 2, top-p in (0, 1), coin
in [0, 1), and a scratch buffer at least as long as the vector,
`sample_topp` follows exactly the specification's steps: filter by the
cutoff `(1 - topp) / (len - 1)` preserving encounter order, sort ascending
by probability, truncate at the first subset position whose cumulative
probability exceeds top-p (defaulting to `n0 - 1`), rescale the coin by the
cumulative probability accumulated up to `last_idx`, and walk positions
`0..=last_idx` returning the original index of the first element whose
running sum exceeds the rescaled coin, falling back to the element at
`last_idx`. -/
theorem sample_topp_refines_spec (probs : List ℚ) (topp coin : ℚ) (scratch_len : ℕ)
    (hlen2 : 2 ≤ probs.length) (ht0 : 0 < topp) (ht1 : topp < 1)
    (hc0 : 0 ≤ coin) (hc1 : coin < 1) (hscr : probs.length ≤ scratch_len) :
    sample_topp probs topp scratch_len coin = sample_topp_spec probs topp coin := by
  have hne0 : ¬probs.length = 0 := by omega
  have hnoscr : ¬scratch_len < (toppFilter probs topp).length :=
    not_lt.mpr (le_trans (toppFilter_length_le probs topp) hscr)
  rw [sample_topp, sample_topp_spec, ← toppFilter_eq_spec probs topp hlen2]
  simp only [if_neg hne0, if_neg hnoscr, partialSums]
  by_cases hn0 : (toppFilter probs topp).length = 0
  · rw [if_pos hn0, if_pos hn0]
  · rw [if_neg hn0, if_neg hn0]
    have hsums_len :
        (partialSumsFrom 0 ((sortProb (toppFilter probs topp)).map Prod.fst)).length =
          (toppFilter probs topp).length := by
      rw [partialSumsFrom_length, List.length_map, sortProb_length]
    have hmass :
        (partialSumsFrom 0 ((sortProb (toppFilter probs topp)).map Prod.fst)).getLastD 0 =
          (partialSumsFrom 0 ((sortProb (toppFilter probs topp)).map Prod.fst)).getD
            ((toppFilter probs topp).length - 1) 0 := by
      cases hcase : partialSumsFrom 0 ((sortProb (toppFilter probs topp)).map Prod.fst) with
      | nil =>
        exfalso
        have hlen' := hsums_len
        rw [hcase] at hlen'
        exact hn0 hlen'.symm
      | cons s0 srest =>
        have hlen' : srest.length = (toppFilter probs topp).length - 1 := by
          have hl := hsums_len
          rw [hcase] at hl
          simp at hl
          omega
        rw [getLastD_cons_getD, hlen']
    rw [truncGo_eq_spec, truncMatch_getD _ _ _ hmass, cdfScan_eq_spec]

/-- Witness for C3 at `probs = [3/10, 7/10]`, top-p 1/2, coin 1/4,
scratch length 2. -/
theorem sample_topp_refines_spec_witness :
    (2 ≤ ([(3 : ℚ)/10, 7/10] : List ℚ).length ∧ (0 : ℚ) < 1/2 ∧ (1 : ℚ)/2 < 1 ∧
      (0 : ℚ) ≤ 1/4 ∧ (1 : ℚ)/4 < 1 ∧ ([(3 : ℚ)/10, 7/10] : List ℚ).length ≤ 2) ∧
    sample_topp [(3 : ℚ)/10, 7/10] (1/2) 2 (1/4) = sample_topp_spec [(3 : ℚ)/10, 7/10] (1/2) (1/4) :=
  ⟨⟨by simp, by norm_num, by norm_num, by norm_num, by norm_num, by simp⟩,
    sample_topp_refines_spec [(3 : ℚ)/10, 7/10] (1/2) (1/4) 2 (by simp) (by norm_num)
      (by norm_num) (by norm_num) (by norm_num) (by simp)⟩

/-! ## Claim C8: the value-type tag table -/

/-- C8: the metadata value-type enumeration assigns tags 0 through 12 to
U8, I8, U16, I16, U32, I32, F32, Bool, String, Array, U64, I64, F64 in
exactly that order. -/
theorem ggufValueType_tag_table :
    GGUFValueType.tag .U8 = 0 ∧ GGUFValueType.tag .I8 = 1 ∧
    GGUFValueType.tag .U16 = 2 ∧ GGUFValueType.tag .I16 = 3 ∧
    GGUFValueType.tag .U32 = 4 ∧ GGUFValueType.tag .I32 = 5 ∧
    GGUFValueType.tag .F32 = 6 ∧ GGUFValueType.tag .Bool = 7 ∧
    GGUFValueType.tag .String = 8 ∧ GGUFValueType.tag .Array = 9 ∧
    GGUFValueType.tag .U64 = 10 ∧ GGUFValueType.tag .I64 = 11 ∧
    GGUFValueType.tag .F64 = 12 := by
  decide

/-! ## Claim C9: magic and version constants -/

/-- C9: the magic constant equals `0x46554747`, which is the little-endian
32-bit reading of the ASCII bytes 'G', 'G', 'U', 'F', and the supported
version constant equals 2. -/
theorem gguf_magic_is_le_GGUF_and_version_two :
    GGUF_MAGIC = 0x46554747 ∧
    GGUF_MAGIC = leBytes (List.map Char.toNat [ 'G', 'G', 'U', 'F' ]) ∧
    GGUF_VERSION = 2 := by
  decide

end Crabml
